import Mathlib

/-!
Shallow embedding of the bevy_ecs change-detection and indexing core
(crates/bevy_ecs/src/change_detection.rs, crates/bevy_ecs/src/indexing.rs,
crates/bevy_ecs/src/index/query_by_index.rs), together with proofs of the
specification's claims about it.

Machine integers are embedded as Nat with explicit reduction modulo 2^32
where the source relies on wrapping u32 arithmetic.
-/

/-- Number of distinct values of a 32-bit unsigned integer. -/
def u32Size : Nat := 4294967296

/-- Largest value of a 32-bit unsigned integer (u32::MAX). -/
def u32MAX : Nat := 4294967295

/-- The minimum number of world tick increments between check-tick scans,
from crates/bevy_ecs/src/change_detection.rs. -/
def CHECK_TICK_THRESHOLD : Nat := 518400000

/-- The maximum change tick difference that will not overflow before the next
scan, from crates/bevy_ecs/src/change_detection.rs:
u32::MAX - (2 * CHECK_TICK_THRESHOLD - 1). -/
def MAX_CHANGE_AGE : Nat := u32MAX - (2 * CHECK_TICK_THRESHOLD - 1)

/-- Wrapping 32-bit subtraction: the embedding of u32::wrapping_sub on tick
values. Arguments are reduced modulo 2^32, so the definition is total. -/
def wsub (x y : Nat) : Nat := (x % u32Size + u32Size - y % u32Size) % u32Size

/-- Modelled from the spec: Tick::is_newer_than is declared in bevy_ecs
component-module code that is not among the sources here; only its callers
and tests are. The spec describes the comparison of the wrapping age of the
tick against the wrapping age of last_run relative to this_run, and the spec
(4.3, 8.1) together with the change_expiration test in
crates/bevy_ecs/src/change_detection.rs fix that both ages are clamped to
MAX_CHANGE_AGE before the comparison, so changes older than MAX_CHANGE_AGE
stop being reported. -/
def is_newer_than (a last_run this_run : Nat) : Bool :=
  decide (min (wsub this_run a) MAX_CHANGE_AGE
    < min (wsub this_run last_run) MAX_CHANGE_AGE)

/-- Modelled from the spec: the periodic tick-overflow scan's per-tick clamp
(Tick::check_tick), declared in bevy_ecs component-module code that is not
among the sources here; the spec (4.3) says that when the age of a stored
tick relative to the current tick exceeds MAX_CHANGE_AGE, the stored tick is
moved forward so that its age becomes exactly MAX_CHANGE_AGE, which the
change_tick_scan test in crates/bevy_ecs/src/change_detection.rs exercises. -/
def check_tick (s cur : Nat) : Nat :=
  if MAX_CHANGE_AGE < wsub cur s then wsub cur MAX_CHANGE_AGE else s

/-- One stored tick slot of a world whose update counter has been advanced
monotonically from world start. The indices are: U, the total number of world
updates so far; d, the number of updates since the most recent overflow scan;
s, the stored 32-bit tick value; T, the true age of the slot in elapsed
updates. The side conditions on d force a scan at least every
CHECK_TICK_THRESHOLD updates, as the spec's wraparound-safety property
assumes. -/
inductive TickReach : Nat → Nat → Nat → Nat → Prop
  | stamp (U d : Nat) (hd : d ≤ CHECK_TICK_THRESHOLD) :
      TickReach U d (U % u32Size) 0
  | advance {U d s T : Nat} (h : TickReach U d s T)
      (hd : d < CHECK_TICK_THRESHOLD) : TickReach (U + 1) (d + 1) s (T + 1)
  | scan {U d s T : Nat} (h : TickReach U d s T) :
      TickReach U 0 (check_tick s (U % u32Size)) T

/-- The four ticks carried by an access proxy: the change-cell pair (added,
changed) plus the reference pair (last_run, this_run); struct Ticks in
crates/bevy_ecs/src/change_detection.rs. -/
structure Ticks where
  added : Nat
  changed : Nat
  last_run : Nat
  this_run : Nat

/-- Read-write access proxy over a value of type α together with its change
ticks; struct Proxy in crates/bevy_ecs/src/change_detection.rs. The mutable
borrows of the cells are embedded by explicit state passing: each operation
returns the updated proxy state. -/
structure Proxy (α : Type) where
  value : α
  ticks : Ticks

/-- DetectChangesMut::set_changed for Proxy: stamps changed with this_run. -/
def Proxy.set_changed {α : Type} (p : Proxy α) : Proxy α :=
  { p with ticks := { p.ticks with changed := p.ticks.this_run } }

/-- DetectChangesMut::set_last_changed for Proxy: stamps changed with an
arbitrary tick. -/
def Proxy.set_last_changed {α : Type} (p : Proxy α) (last_changed : Nat) :
    Proxy α :=
  { p with ticks := { p.ticks with changed := last_changed } }

/-- DetectChanges::is_added for Proxy:
added.is_newer_than(last_run, this_run). -/
def Proxy.is_added {α : Type} (p : Proxy α) : Bool :=
  is_newer_than p.ticks.added p.ticks.last_run p.ticks.this_run

/-- DetectChanges::is_changed for Proxy:
changed.is_newer_than(last_run, this_run). -/
def Proxy.is_changed {α : Type} (p : Proxy α) : Bool :=
  is_newer_than p.ticks.changed p.ticks.last_run p.ticks.this_run

/-- DetectChangesMut::bypass_change_detection returns the wrapped value as a
mutable handle without touching any tick. -/
def Proxy.bypass_change_detection {α : Type} (p : Proxy α) : α :=
  p.value

/-- A write through the mutable handle obtained from bypass_change_detection:
the value is replaced and no tick is touched. -/
def Proxy.bypass_write {α : Type} (p : Proxy α) (f : α → α) : Proxy α :=
  { p with value := f p.value }

/-- DerefMut for Proxy: set_changed runs first, then the mutable reference to
the value is yielded. The proxy state at the moment the reference is handed
out is the result. -/
def Proxy.deref_mut {α : Type} (p : Proxy α) : Proxy α :=
  p.set_changed

/-- A full mutable-dereference access: DerefMut stamps changed, then the
caller writes through the yielded reference. -/
def Proxy.deref_mut_write {α : Type} (p : Proxy α) (f : α → α) : Proxy α :=
  let q := p.set_changed
  { q with value := f q.value }

/-- DetectChangesMut::set_if_neq for Proxy: reads the old value through
bypass_change_detection, and only when it differs from the new value writes
the new value and runs set_changed. -/
def Proxy.set_if_neq {α : Type} [DecidableEq α] (p : Proxy α) (v : α) :
    Proxy α :=
  if p.bypass_change_detection ≠ v then
    Proxy.set_changed { p with value := v }
  else
    p

/-- Proxy::into_inner for the typed mutable proxy Mut: set_changed runs,
then the inner mutable reference is returned. -/
def Proxy.into_inner {α : Type} (p : Proxy α) : Proxy α × α :=
  let q := p.set_changed
  (q, q.value)

/-- The untyped mutable proxy MutUntyped over an erased pointer, embedded
with an abstract pointee type β; crates/bevy_ecs/src/change_detection.rs. -/
structure MutUntyped (β : Type) where
  value : β
  ticks : Ticks

/-- MutUntyped's own set_changed: stamps changed with this_run. -/
def MutUntyped.set_changed {β : Type} (p : MutUntyped β) : MutUntyped β :=
  { p with ticks := { p.ticks with changed := p.ticks.this_run } }

/-- MutUntyped::into_inner: set_changed runs, then the inner pointer is
returned. -/
def MutUntyped.into_inner {β : Type} (p : MutUntyped β) : MutUntyped β × β :=
  let q := p.set_changed
  (q, q.value)

/-- The stored data of an Index: the forward map from index key to entity
set, the reverse map from entity to index key, and the tick of the last
refresh; struct IndexBacking in crates/bevy_ecs/src/indexing.rs. The hash
maps are embedded as functions into Option, the entity sets as Finset; the
source's auxiliary always-empty set used by get is rendered by getD with
the empty Finset. -/
structure IndexBacking (E K : Type) where
  forward : K → Option (Finset E)
  reverse : E → Option K
  last_this_run : Option Nat

/-- Default::default for IndexBacking: both maps empty, no refresh yet. -/
def IndexBacking.init {E K : Type} : IndexBacking E K :=
  ⟨fun _ => none, fun _ => none, none⟩

/-- The forward-map half of IndexBacking::update: when the entity had an old
key, the entity is removed from the old key's bucket, and the bucket itself
is removed when it becomes empty. -/
def eraseEntity {E K : Type} [DecidableEq E] [DecidableEq K]
    (forward : K → Option (Finset E)) (entity : E) (old : Option K) :
    K → Option (Finset E) := fun k' =>
  match old with
  | none => forward k'
  | some k =>
    if k' = k then
      match forward k with
      | none => none
      | some s =>
        if s.erase entity = ∅ then none else some (s.erase entity)
    else forward k'

/-- The forward-map half of IndexBacking::update for the new value:
forward.entry(value).or_default().insert(entity). -/
def insertEntity {E K : Type} [DecidableEq E] [DecidableEq K]
    (forward : K → Option (Finset E)) (entity : E) (v : Option K) :
    K → Option (Finset E) := fun k' =>
  match v with
  | none => forward k'
  | some k =>
    if k' = k then
      match forward k with
      | none => some (insert entity ∅)
      | some s => some (insert entity s)
    else forward k'

/-- IndexBacking::update from crates/bevy_ecs/src/indexing.rs: the value is
passed through the Indexer (ixf), the reverse map is updated returning the
old key, the entity is removed from the old key's bucket (pruning an empty
bucket), and inserted into the new key's bucket; the old key is returned. -/
def IndexBacking.update {E K T : Type} [DecidableEq E] [DecidableEq K]
    (ixf : T → K) (b : IndexBacking E K) (entity : E) (value : Option T) :
    IndexBacking E K × Option K :=
  (⟨insertEntity (eraseEntity b.forward entity (b.reverse entity)) entity
      (value.map ixf),
    fun e => if e = entity then value.map ixf else b.reverse e,
    b.last_this_run⟩,
   b.reverse entity)

/-- IndexBacking::get: the forward bucket of the value's computed key, or the
empty set when the key is absent. -/
def IndexBacking.get {E K T : Type} (ixf : T → K) (b : IndexBacking E K)
    (value : T) : Finset E :=
  ((b.forward (ixf value)).getD ∅)

/-- The collaborators the Index system parameter bundles besides the backing
resource: the drained change events (entity paired with its component
value), the drained removal events, and the current tick; struct Index in
crates/bevy_ecs/src/indexing.rs. -/
structure IndexEnv (E T : Type) where
  changed : List (E × T)
  removed : List E
  this_run : Nat

/-- Index::update_index_internal: drain the removal events, then the change
events, then stamp last_this_run with this_run. -/
def Index.update_index_internal {E K T : Type} [DecidableEq E]
    [DecidableEq K] (ixf : T → K) (env : IndexEnv E T)
    (b : IndexBacking E K) : IndexBacking E K :=
  let b1 := env.removed.foldl
    (fun b e => (IndexBacking.update ixf b e none).1) b
  let b2 := env.changed.foldl
    (fun b p => (IndexBacking.update ixf b p.1 (some p.2)).1) b1
  { b2 with last_this_run := some env.this_run }

/-- Index::ensure_updated: refresh only when last_this_run differs from the
current tick. -/
def Index.ensure_updated {E K T : Type} [DecidableEq E] [DecidableEq K]
    (ixf : T → K) (env : IndexEnv E T) (b : IndexBacking E K) :
    IndexBacking E K :=
  if b.last_this_run ≠ some env.this_run then
    Index.update_index_internal ixf env b
  else
    b

/-- Index::get: ensure_updated first, then the backing lookup. The refreshed
backing state is returned alongside the bucket. -/
def Index.get {E K T : Type} [DecidableEq E] [DecidableEq K] (ixf : T → K)
    (env : IndexEnv E T) (b : IndexBacking E K) (value : T) :
    IndexBacking E K × Finset E :=
  let b' := Index.ensure_updated ixf env b
  (b', IndexBacking.get ixf b' value)

/-- Index::iter: ensure_updated first, then the full forward map. -/
def Index.iter {E K T : Type} [DecidableEq E] [DecidableEq K] (ixf : T → K)
    (env : IndexEnv E T) (b : IndexBacking E K) :
    IndexBacking E K × (K → Option (Finset E)) :=
  let b' := Index.ensure_updated ixf env b
  (b', b'.forward)

/-- A sequence of IndexBacking::update calls applied from the default
(empty) backing. -/
def IndexBacking.applyAll {E K T : Type} [DecidableEq E] [DecidableEq K]
    (ixf : T → K) (ops : List (E × Option T)) : IndexBacking E K :=
  ops.foldl (fun b op => (IndexBacking.update ixf b op.1 op.2).1)
    IndexBacking.init

/-- Membership of an entity in the bucket a forward map stores under a key. -/
def memBucketF {E K : Type} (forward : K → Option (Finset E)) (k : K)
    (e : E) : Prop :=
  ∃ s, forward k = some s ∧ e ∈ s

/-- Membership of an entity in an IndexBacking's forward bucket for a key. -/
def IndexBacking.memBucket {E K : Type} (b : IndexBacking E K) (k : K)
    (e : E) : Prop :=
  memBucketF b.forward k e

/-- The mutual-inverse invariant of an IndexBacking: an entity lies in the
forward bucket of key k exactly when the reverse map assigns k to it. -/
def IndexBacking.InvInverse {E K : Type} (b : IndexBacking E K) : Prop :=
  ∀ e k, b.memBucket k e ↔ b.reverse e = some k

/-- No bucket of a forward map is empty. -/
def NoEmptyF {E K : Type} (forward : K → Option (Finset E)) : Prop :=
  ∀ k s, forward k = some s → s ≠ ∅

/-- No forward bucket of an IndexBacking is empty. -/
def IndexBacking.NoEmpty {E K : Type} (b : IndexBacking E K) : Prop :=
  NoEmptyF b.forward

/-- Modelled from the spec: the Index resource consulted by QueryByIndex
(its mapping from component value to routing bit pattern and its list of
marker component ids) is declared in bevy_ecs index-module code that is not
among the sources here; only the two fields QueryByIndex::at reads are
modelled, following the spec's index-backed filter description. -/
structure IndexRes (C : Type) where
  mapping : C → Option Nat
  markers : List Nat

/-- The outcome of a call that may panic: either a panic with the panic
message, or a produced query. -/
inductive AtOutcome (Q : Type) where
  | panicked (msg : String)
  | query (q : Q)

/-- The per-system cached state of QueryByIndex from
crates/bevy_ecs/src/index/query_by_index.rs: the primary query state and the
with-marker and without-marker sub-filter states. -/
structure QueryByIndexState (Q F : Type) where
  primary_query_state : Q
  with_states : List F
  without_states : List F

/-- QueryByIndex::at from crates/bevy_ecs/src/index/query_by_index.rs: look
the value up in the index mapping; on the None branch the source executes
todo!("make a null query to return"), which panics; otherwise compose, per
marker bit, the with-marker or without-marker sub-filter onto the current
state via join_filtered, and yield the query for the final state. -/
def QueryByIndex.at_lookup {C Q F : Type} (st : QueryByIndexState Q F)
    (join_filtered : Q → F → Q) (dflt : F) (index_res : IndexRes C)
    (value : C) : AtOutcome Q :=
  match index_res.mapping value with
  | none => AtOutcome.panicked ("make a null query to return")
  | some index =>
    let final : Option Q := (List.range index_res.markers.length).foldl
      (fun acc i =>
        if 0 < index &&& (1 <<< i) then
          some (join_filtered (acc.getD st.primary_query_state)
            (st.with_states.getD i dflt))
        else
          some (join_filtered (acc.getD st.primary_query_state)
            (st.without_states.getD i dflt)))
      none
    AtOutcome.query (final.getD st.primary_query_state)

/-- C1: calling QueryByIndex::at with a value that has no entry in the index
mapping reaches the source's todo! stub and panics, instead of yielding an
empty query as the claim's contract requires; evaluated here at a concrete
unmapped value. -/
theorem queryByIndex_at_unmapped_value_panics :
    QueryByIndex.at_lookup (C := Nat) (Q := Unit) (F := Unit) ⟨(), [], []⟩
      (fun q _ => q) () ⟨fun _ => none, []⟩ 7 =
    AtOutcome.panicked ("make a null query to return") := rfl

/-- C3: a mutable dereference of a Proxy stamps changed with this_run before
yielding the reference (and then the caller's write lands in the value),
while bypass_change_detection yields the value and a write through it leaves
every tick unchanged. -/
theorem mut_deref_stamps_and_bypass_does_not {α : Type} (p : Proxy α)
    (f : α → α) :
    (p.deref_mut).ticks.changed = p.ticks.this_run ∧
    (p.deref_mut).value = p.value ∧
    (p.deref_mut_write f).ticks.changed = p.ticks.this_run ∧
    (p.deref_mut_write f).value = f p.value ∧
    (p.deref_mut_write f).ticks.added = p.ticks.added ∧
    p.bypass_change_detection = p.value ∧
    (p.bypass_write f).ticks = p.ticks ∧
    (p.bypass_write f).value = f p.value :=
  ⟨rfl, rfl, rfl, rfl, rfl, rfl, rfl, rfl⟩

/-- C4: set_if_neq with a value equal to the current one is the identity on
the whole proxy state; with a different value it writes the value, stamps
changed with this_run, and leaves the other ticks alone. -/
theorem set_if_neq_law {α : Type} [DecidableEq α] (p : Proxy α) (v : α) :
    (v = p.value → p.set_if_neq v = p) ∧
    (v ≠ p.value →
      (p.set_if_neq v).value = v ∧
      (p.set_if_neq v).ticks.changed = p.ticks.this_run ∧
      (p.set_if_neq v).ticks.added = p.ticks.added ∧
      (p.set_if_neq v).ticks.last_run = p.ticks.last_run ∧
      (p.set_if_neq v).ticks.this_run = p.ticks.this_run) := by
  constructor
  · intro h
    unfold Proxy.set_if_neq
    rw [if_neg]
    intro hne
    exact hne (by rw [Proxy.bypass_change_detection, h])
  · intro h
    have hne : p.bypass_change_detection ≠ v := fun hh => h (hh.symm)
    unfold Proxy.set_if_neq
    rw [if_pos hne]
    exact ⟨rfl, rfl, rfl, rfl, rfl⟩

/-- Witness for C4 at a concrete proxy over Nat: the equal write is a no-op
and the unequal write lands and stamps changed. -/
theorem set_if_neq_law_witness :
    (Proxy.set_if_neq ⟨0, ⟨1, 1, 2, 3⟩⟩ (0 : Nat) = ⟨0, ⟨1, 1, 2, 3⟩⟩) ∧
    (Proxy.set_if_neq ⟨0, ⟨1, 1, 2, 3⟩⟩ (5 : Nat)).value = 5 ∧
    (Proxy.set_if_neq ⟨0, ⟨1, 1, 2, 3⟩⟩ (5 : Nat)).ticks.changed = 3 :=
  ⟨(set_if_neq_law ⟨0, ⟨1, 1, 2, 3⟩⟩ 0).1 rfl,
   ((set_if_neq_law ⟨0, ⟨1, 1, 2, 3⟩⟩ 5).2 (by decide)).1,
   ((set_if_neq_law ⟨0, ⟨1, 1, 2, 3⟩⟩ 5).2 (by decide)).2.1⟩

/-- C7 counterexample: the claim's characterization of newer-than as the
bare wrapping comparison, without clamping to MAX_CHANGE_AGE, is false: at
a proxy whose added tick is MAX_CHANGE_AGE old while last_run is
MAX_CHANGE_AGE + 1 old, is_added is false although the bare wrapping
comparison holds. -/
theorem unclamped_newer_formula_counterexample :
    ¬ ((Proxy.is_added ⟨(), ⟨1, 1, 0, MAX_CHANGE_AGE + 1⟩⟩ = true) ↔
      wsub (MAX_CHANGE_AGE + 1) 1 < wsub (MAX_CHANGE_AGE + 1) 0) := by
  decide

/-- C7 amended: is_added and is_changed return exactly
is_newer_than(last_run, this_run) of the added and changed ticks, where a
tick is newer than last_run with respect to this_run if and only if its
wrapping age is smaller than last_run's wrapping age after both ages are
clamped to MAX_CHANGE_AGE. -/
theorem is_added_is_changed_clamped {α : Type} (p : Proxy α) :
    (p.is_added = is_newer_than p.ticks.added p.ticks.last_run
      p.ticks.this_run) ∧
    (p.is_changed = is_newer_than p.ticks.changed p.ticks.last_run
      p.ticks.this_run) ∧
    (p.is_added = true ↔
      min (wsub p.ticks.this_run p.ticks.added) MAX_CHANGE_AGE
        < min (wsub p.ticks.this_run p.ticks.last_run) MAX_CHANGE_AGE) ∧
    (p.is_changed = true ↔
      min (wsub p.ticks.this_run p.ticks.changed) MAX_CHANGE_AGE
        < min (wsub p.ticks.this_run p.ticks.last_run) MAX_CHANGE_AGE) := by
  refine ⟨rfl, rfl, ?_, ?_⟩ <;>
    simp [Proxy.is_added, Proxy.is_changed, is_newer_than]

/-- C9: consuming a mutable proxy with into_inner stamps changed with
this_run before handing the inner reference out, for the typed variant and
the untyped variant alike, with no write required. -/
theorem into_inner_stamps_changed {α β : Type} (p : Proxy α)
    (q : MutUntyped β) :
    (p.into_inner).1.ticks.changed = p.ticks.this_run ∧
    (p.into_inner).2 = p.value ∧
    (p.into_inner).1.value = p.value ∧
    (q.into_inner).1.ticks.changed = q.ticks.this_run ∧
    (q.into_inner).2 = q.value ∧
    (q.into_inner).1.value = q.value :=
  ⟨rfl, rfl, rfl, rfl, rfl, rfl⟩

/-- The wrapping age of a stored tick recovers the exact age whenever the
age has not yet reached 2^32. -/
theorem wsub_mod_cancel {U e : Nat} (h1 : e ≤ U) (h2 : e < u32Size) :
    wsub (U % u32Size) ((U - e) % u32Size) = e := by
  unfold wsub u32Size at *
  omega

/-- Clamping a stored tick to age MAX_CHANGE_AGE stores the tick that is
exactly MAX_CHANGE_AGE updates old. -/
theorem wsub_clamp_eq {U : Nat} (h1 : MAX_CHANGE_AGE ≤ U) :
    wsub (U % u32Size) MAX_CHANGE_AGE = (U - MAX_CHANGE_AGE) % u32Size := by
  unfold wsub MAX_CHANGE_AGE u32MAX CHECK_TICK_THRESHOLD u32Size at *
  omega

/-- The invariant of a reachable stored tick slot: the stored tick is
exactly e updates behind the current tick modulo 2^32, for an effective age
e that never exceeds the true age, equals the true age while that is below
MAX_CHANGE_AGE, stays at least MAX_CHANGE_AGE once the true age reaches
MAX_CHANGE_AGE, and is at most MAX_CHANGE_AGE plus the updates since the
last scan. -/
theorem TickReach.invariant {U d s T : Nat} (h : TickReach U d s T) :
    d ≤ CHECK_TICK_THRESHOLD ∧
    ∃ e, e ≤ T ∧ e ≤ U ∧ e ≤ MAX_CHANGE_AGE + d ∧
      (T < MAX_CHANGE_AGE → e = T) ∧
      (MAX_CHANGE_AGE ≤ T → MAX_CHANGE_AGE ≤ e) ∧
      s = (U - e) % u32Size := by
  induction h with
  | stamp U d hd =>
    refine ⟨hd, 0, Nat.zero_le _, Nat.zero_le _, Nat.zero_le _,
      fun _ => rfl, fun hT => ?_, rfl⟩
    unfold MAX_CHANGE_AGE u32MAX CHECK_TICK_THRESHOLD at hT
    omega
  | @advance U' d' s' T' h hd ih =>
    obtain ⟨hdN, e, h1, h2, h3, h4, h5, h6⟩ := ih
    refine ⟨by omega, e + 1, by omega, by omega, by omega, ?_, ?_, ?_⟩
    · intro hT
      have := h4 (by omega)
      omega
    · intro hT
      by_cases hc : T' < MAX_CHANGE_AGE
      · have := h4 hc
        omega
      · have := h5 (by omega)
        omega
    · have hs : U' + 1 - (e + 1) = U' - e := by omega
      rw [hs]
      exact h6
  | @scan U' d' s' T' h ih =>
    obtain ⟨hdN, e, h1, h2, h3, h4, h5, h6⟩ := ih
    have he : e < u32Size := by
      unfold MAX_CHANGE_AGE u32MAX CHECK_TICK_THRESHOLD u32Size at *
      omega
    have hw : wsub (U' % u32Size) s' = e := by
      rw [h6]
      exact wsub_mod_cancel h2 he
    unfold check_tick
    rw [hw]
    by_cases hc : MAX_CHANGE_AGE < e
    · rw [if_pos hc]
      refine ⟨Nat.zero_le _, MAX_CHANGE_AGE, by omega, by omega, by omega,
        fun hT => by omega, fun _ => le_refl _, ?_⟩
      exact wsub_clamp_eq (by omega)
    · rw [if_neg hc]
      exact ⟨Nat.zero_le _, e, h1, h2, by omega, h4, h5, h6⟩

/-- C2: in a world whose tick has been monotonically advanced from world
start with the overflow scan run at least every CHECK_TICK_THRESHOLD
updates, is_newer_than applied to a reachable stored tick and a reachable
last_run reference never returns true for a tick whose true age is at least
MAX_CHANGE_AGE, and never returns a wraparound false positive (true for a
tick that is not actually newer) while the tick's true age is below
MAX_CHANGE_AGE. -/
theorem tick_is_newer_than_wraparound_safe {U da sa Ta dl sl Tl : Nat}
    (ha : TickReach U da sa Ta) (hl : TickReach U dl sl Tl) :
    (MAX_CHANGE_AGE ≤ Ta → is_newer_than sa sl (U % u32Size) = false) ∧
    (Ta < MAX_CHANGE_AGE → Tl ≤ Ta →
      is_newer_than sa sl (U % u32Size) = false) := by
  obtain ⟨hda, ea, ha1, ha2, ha3, ha4, ha5, ha6⟩ := ha.invariant
  obtain ⟨hdl, el, hl1, hl2, hl3, hl4, hl5, hl6⟩ := hl.invariant
  have hea : ea < u32Size := by
    unfold MAX_CHANGE_AGE u32MAX CHECK_TICK_THRESHOLD u32Size at *
    omega
  have hel : el < u32Size := by
    unfold MAX_CHANGE_AGE u32MAX CHECK_TICK_THRESHOLD u32Size at *
    omega
  have hwa : wsub (U % u32Size) sa = ea := by
    rw [ha6]
    exact wsub_mod_cancel ha2 hea
  have hwl : wsub (U % u32Size) sl = el := by
    rw [hl6]
    exact wsub_mod_cancel hl2 hel
  constructor
  · intro hT
    have h1 : MAX_CHANGE_AGE ≤ ea := ha5 hT
    simp only [is_newer_than, hwa, hwl, decide_eq_false_iff_not]
    omega
  · intro hTa hTl
    have h1 : ea = Ta := ha4 hTa
    have h2 : el ≤ Tl := hl1
    simp only [is_newer_than, hwa, hwl, decide_eq_false_iff_not]
    omega

/-- Witness for C2: a stored tick stamped at update 3 and observed at update
5 (true age 2, below MAX_CHANGE_AGE) against a reference stamped at update 5
(true age 0, so the stored tick is not newer) is reported not newer. -/
theorem tick_is_newer_than_wraparound_safe_witness :
    is_newer_than 3 5 (5 % u32Size) = false := by
  have h3 : (3 : Nat) % u32Size = 3 := by decide
  have h5 : (5 : Nat) % u32Size = 5 := by decide
  have ha : TickReach 5 2 3 2 := by
    have h := TickReach.advance
      (TickReach.advance (TickReach.stamp 3 0 (by decide)) (by decide))
      (by decide)
    rwa [h3] at h
  have hl : TickReach 5 0 5 0 := by
    have h := TickReach.stamp 5 0 (by decide)
    rwa [h5] at h
  exact (tick_is_newer_than_wraparound_safe ha hl).2 (by decide) (by decide)

/-- eraseEntity leaves keys other than the old key untouched. -/
theorem eraseEntity_at_other {E K : Type} [DecidableEq E] [DecidableEq K]
    (forward : K → Option (Finset E)) (entity : E) (k0 k : K)
    (hk : k ≠ k0) : eraseEntity forward entity (some k0) k = forward k := by
  simp [eraseEntity, hk]

/-- insertEntity leaves keys other than the new key untouched. -/
theorem insertEntity_at_other {E K : Type} [DecidableEq E] [DecidableEq K]
    (forward : K → Option (Finset E)) (entity : E) (k0 k : K)
    (hk : k ≠ k0) : insertEntity forward entity (some k0) k = forward k := by
  simp [insertEntity, hk]

/-- Bucket membership after the old-bucket removal half of update: an entity
is in a bucket of the result exactly when it was in that bucket before and
is not the removed entity being taken out of that bucket. -/
theorem memBucketF_eraseEntity {E K : Type} [DecidableEq E] [DecidableEq K]
    (forward : K → Option (Finset E)) (entity : E) (old : Option K)
    (k : K) (x : E) :
    memBucketF (eraseEntity forward entity old) k x ↔
      (memBucketF forward k x ∧ ¬(x = entity ∧ old = some k)) := by
  cases old with
  | none => simp [memBucketF, eraseEntity]
  | some k0 =>
    by_cases hk : k = k0
    · subst hk
      cases hf : forward k with
      | none => simp [memBucketF, eraseEntity, hf]
      | some s =>
        by_cases hs : s.erase entity = ∅
        · have hsub : ∀ y, y ∈ s → y = entity := by
            intro y hy
            by_contra hne
            have hmem : y ∈ s.erase entity := Finset.mem_erase.mpr ⟨hne, hy⟩
            rw [hs] at hmem
            exact absurd hmem (Finset.not_mem_empty y)
          constructor
          · rintro ⟨t, ht, hx⟩
            rw [memBucketF, eraseEntity] at *
            simp only [hf, if_pos rfl, hs, if_true] at ht
            exact absurd ht (by simp)
          · rintro ⟨⟨t, ht, hx⟩, hne⟩
            rw [hf] at ht
            injection ht with ht
            subst ht
            exact absurd ⟨hsub x hx, rfl⟩ hne
        · constructor
          · rintro ⟨t, ht, hx⟩
            simp only [eraseEntity, if_pos rfl, hf, if_neg hs] at ht
            injection ht with ht
            subst ht
            obtain ⟨hne, hxs⟩ := Finset.mem_erase.mp hx
            exact ⟨⟨s, hf, hxs⟩, fun hc => hne hc.1⟩
          · rintro ⟨⟨t, ht, hx⟩, hne⟩
            rw [hf] at ht
            injection ht with ht
            subst ht
            refine ⟨s.erase entity, ?_, ?_⟩
            · simp [eraseEntity, hf, hs]
            · exact Finset.mem_erase.mpr ⟨fun hc => hne ⟨hc, rfl⟩, hx⟩
    · constructor
      · rintro ⟨t, ht, hx⟩
        rw [eraseEntity_at_other forward entity k0 k hk] at ht
        exact ⟨⟨t, ht, hx⟩, fun hc => hk (Option.some_injective _ hc.2).symm⟩
      · rintro ⟨⟨t, ht, hx⟩, -⟩
        exact ⟨t, by rw [eraseEntity_at_other forward entity k0 k hk]; exact ht, hx⟩

/-- Bucket membership is membership in the bucket read off with a default of
the empty set, the way IndexBacking::get reads it. -/
theorem memBucketF_getD {E K : Type} (forward : K → Option (Finset E))
    (k : K) (x : E) : memBucketF forward k x ↔ x ∈ (forward k).getD ∅ := by
  cases hf : forward k <;> simp [memBucketF, hf]

/-- The new key's bucket after insertEntity holds exactly the inserted
entity on top of the previous bucket contents. -/
theorem insertEntity_at_self {E K : Type} [DecidableEq E] [DecidableEq K]
    (forward : K → Option (Finset E)) (entity : E) (k : K) :
    insertEntity forward entity (some k) k
      = some (insert entity ((forward k).getD ∅)) := by
  cases hf : forward k <;> simp [insertEntity, hf]

/-- Bucket membership after the new-bucket insertion half of update: an
entity is in a bucket of the result exactly when it was there before or it
is the inserted entity landing in the new key's bucket. -/
theorem memBucketF_insertEntity {E K : Type} [DecidableEq E] [DecidableEq K]
    (forward : K → Option (Finset E)) (entity : E) (v : Option K)
    (k : K) (x : E) :
    memBucketF (insertEntity forward entity v) k x ↔
      (memBucketF forward k x ∨ (x = entity ∧ v = some k)) := by
  cases v with
  | none => simp [memBucketF, insertEntity]
  | some k0 =>
    by_cases hk : k = k0
    · subst hk
      have h1 : memBucketF (insertEntity forward entity (some k)) k x ↔
          x ∈ insert entity ((forward k).getD ∅) := by
        rw [memBucketF_getD, insertEntity_at_self, Option.getD_some]
      have h2 : memBucketF forward k x ↔ x ∈ (forward k).getD ∅ :=
        memBucketF_getD forward k x
      rw [h1, h2, Finset.mem_insert]
      constructor
      · rintro (hx | hx)
        · exact Or.inr ⟨hx, rfl⟩
        · exact Or.inl hx
      · rintro (hx | ⟨hx, -⟩)
        · exact Or.inr hx
        · exact Or.inl hx
    · constructor
      · rintro ⟨t, ht, hx⟩
        rw [insertEntity_at_other forward entity k0 k hk] at ht
        exact Or.inl ⟨t, ht, hx⟩
      · rintro (⟨t, ht, hx⟩ | ⟨-, hc⟩)
        · exact ⟨t, by rw [insertEntity_at_other forward entity k0 k hk]; exact ht, hx⟩
        · exact absurd (Option.some_injective _ hc).symm hk

/-- The reverse map after IndexBacking::update: the updated entity now maps
to the new computed key (or nothing on removal); other entities are
untouched. -/
theorem update_reverse {E K T : Type} [DecidableEq E] [DecidableEq K]
    (ixf : T → K) (b : IndexBacking E K) (entity : E) (value : Option T)
    (x : E) :
    (IndexBacking.update ixf b entity value).1.reverse x =
      if x = entity then value.map ixf else b.reverse x := rfl

/-- Forward-bucket membership after a full IndexBacking::update, assuming
the mutual-inverse invariant held before: the updated entity sits exactly in
its new key's bucket, every other entity sits where it was. -/
theorem update_memBucket {E K T : Type} [DecidableEq E] [DecidableEq K]
    (ixf : T → K) (b : IndexBacking E K) (entity : E) (value : Option T)
    (hinv : b.InvInverse) (k : K) (x : E) :
    (IndexBacking.update ixf b entity value).1.memBucket k x ↔
      (if x = entity then value.map ixf = some k else b.memBucket k x) := by
  show memBucketF (insertEntity (eraseEntity b.forward entity
    (b.reverse entity)) entity (value.map ixf)) k x ↔ _
  rw [memBucketF_insertEntity, memBucketF_eraseEntity]
  by_cases hx : x = entity
  · subst hx
    rw [if_pos rfl]
    constructor
    · rintro (⟨hmem, hnot⟩ | ⟨-, hv⟩)
      · exact absurd ⟨rfl, (hinv x k).mp hmem⟩ hnot
      · exact hv
    · intro hv
      exact Or.inr ⟨rfl, hv⟩
  · rw [if_neg hx]
    constructor
    · rintro (⟨hmem, -⟩ | ⟨hc, -⟩)
      · exact hmem
      · exact absurd hc hx
    · intro hmem
      exact Or.inl ⟨hmem, fun hc => hx hc.1⟩

/-- IndexBacking::update preserves the mutual-inverse invariant. -/
theorem update_preserves_invInverse {E K T : Type} [DecidableEq E]
    [DecidableEq K] (ixf : T → K) (b : IndexBacking E K) (entity : E)
    (value : Option T) (hinv : b.InvInverse) :
    ((IndexBacking.update ixf b entity value).1).InvInverse := by
  intro x k
  rw [update_memBucket ixf b entity value hinv k x]
  show _ ↔ (if x = entity then value.map ixf else b.reverse x) = some k
  by_cases hx : x = entity
  · simp only [if_pos hx]
  · simp only [if_neg hx]
    exact hinv x k

/-- The removal half of update never leaves an empty bucket behind. -/
theorem noEmptyF_eraseEntity {E K : Type} [DecidableEq E] [DecidableEq K]
    {forward : K → Option (Finset E)} (entity : E) (old : Option K)
    (h : NoEmptyF forward) : NoEmptyF (eraseEntity forward entity old) := by
  intro k s hs
  unfold eraseEntity at hs
  split at hs
  · exact h k s hs
  · split at hs
    · split at hs
      · exact absurd hs (by simp)
      · split at hs
        · exact absurd hs (by simp)
        · rename_i he
          injection hs with hs
          subst hs
          exact he
    · exact h k s hs

/-- The insertion half of update never leaves an empty bucket behind. -/
theorem noEmptyF_insertEntity {E K : Type} [DecidableEq E] [DecidableEq K]
    {forward : K → Option (Finset E)} (entity : E) (v : Option K)
    (h : NoEmptyF forward) : NoEmptyF (insertEntity forward entity v) := by
  intro k s hs
  cases v with
  | none => exact h k s hs
  | some k0 =>
    by_cases hk : k = k0
    · subst hk
      rw [insertEntity_at_self] at hs
      injection hs with hs
      subst hs
      exact Finset.insert_ne_empty _ _
    · rw [insertEntity_at_other forward entity k0 k hk] at hs
      exact h k s hs

/-- IndexBacking::update preserves the no-empty-bucket invariant. -/
theorem update_preserves_noEmpty {E K T : Type} [DecidableEq E]
    [DecidableEq K] (ixf : T → K) (b : IndexBacking E K) (entity : E)
    (value : Option T) (h : b.NoEmpty) :
    ((IndexBacking.update ixf b entity value).1).NoEmpty :=
  noEmptyF_insertEntity entity (value.map ixf)
    (noEmptyF_eraseEntity entity (b.reverse entity) h)

/-- When an update takes the last remaining entity out of its old bucket and
the new key differs (or the entity is removed), the old bucket disappears
from the forward map. -/
theorem update_prunes_last {E K T : Type} [DecidableEq E] [DecidableEq K]
    (ixf : T → K) (b : IndexBacking E K) (entity : E) (value : Option T)
    (k1 : K) (s : Finset E) (hrev : b.reverse entity = some k1)
    (hf : b.forward k1 = some s) (hs : s.erase entity = ∅)
    (hv : value.map ixf ≠ some k1) :
    (IndexBacking.update ixf b entity value).1.forward k1 = none := by
  show insertEntity (eraseEntity b.forward entity (b.reverse entity)) entity
    (value.map ixf) k1 = none
  have h1 : eraseEntity b.forward entity (b.reverse entity) k1 = none := by
    rw [hrev]
    simp [eraseEntity, hf, hs]
  cases hv2 : value.map ixf with
  | none => exact h1
  | some kn =>
    have hkn : k1 ≠ kn := fun hc => hv (by rw [hv2, hc])
    rw [insertEntity_at_other _ entity kn k1 hkn]
    exact h1

/-- The default backing satisfies the mutual-inverse invariant. -/
theorem init_invInverse {E K : Type} :
    (IndexBacking.init (E := E) (K := K)).InvInverse := by
  intro x k
  simp [IndexBacking.init, IndexBacking.memBucket, memBucketF]

/-- The default backing has no empty bucket. -/
theorem init_noEmpty {E K : Type} :
    (IndexBacking.init (E := E) (K := K)).NoEmpty := by
  intro k s h
  simp [IndexBacking.init] at h

/-- Any sequence of updates from the default backing keeps the
mutual-inverse invariant. -/
theorem applyAll_invInverse {E K T : Type} [DecidableEq E] [DecidableEq K]
    (ixf : T → K) (ops : List (E × Option T)) :
    (IndexBacking.applyAll ixf ops).InvInverse := by
  have hstep : ∀ (l : List (E × Option T)) (b : IndexBacking E K),
      b.InvInverse →
      (l.foldl (fun b op => (IndexBacking.update ixf b op.1 op.2).1)
        b).InvInverse := by
    intro l
    induction l with
    | nil => exact fun b hb => hb
    | cons hd tl ih =>
      exact fun b hb =>
        ih _ (update_preserves_invInverse ixf b hd.1 hd.2 hb)
  exact hstep ops IndexBacking.init init_invInverse

/-- Any sequence of updates from the default backing leaves no empty
bucket. -/
theorem applyAll_noEmpty {E K T : Type} [DecidableEq E] [DecidableEq K]
    (ixf : T → K) (ops : List (E × Option T)) :
    (IndexBacking.applyAll ixf ops).NoEmpty := by
  have hstep : ∀ (l : List (E × Option T)) (b : IndexBacking E K),
      b.NoEmpty →
      (l.foldl (fun b op => (IndexBacking.update ixf b op.1 op.2).1)
        b).NoEmpty := by
    intro l
    induction l with
    | nil => exact fun b hb => hb
    | cons hd tl ih =>
      exact fun b hb => ih _ (update_preserves_noEmpty ixf b hd.1 hd.2 hb)
  exact hstep ops IndexBacking.init init_noEmpty

/-- C5: after any sequence of IndexBacking::update calls the forward and
reverse maps are mutual inverses, so each indexed entity lies in exactly one
forward bucket; and an update moving an entity from key K1 to a different
key K2 removes it from K1's bucket and inserts it into K2's. -/
theorem index_backing_mutual_inverse {E K T : Type} [DecidableEq E]
    [DecidableEq K] (ixf : T → K) (ops : List (E × Option T))
    (b : IndexBacking E K) (entity x : E) (t : T) (k k' k1 : K) :
    ((IndexBacking.applyAll ixf ops).InvInverse) ∧
    ((IndexBacking.applyAll ixf ops).memBucket k x →
      (IndexBacking.applyAll ixf ops).memBucket k' x → k = k') ∧
    (b.InvInverse → b.reverse entity = some k1 → ixf t ≠ k1 →
      ¬ (IndexBacking.update ixf b entity (some t)).1.memBucket k1 entity ∧
      (IndexBacking.update ixf b entity (some t)).1.memBucket (ixf t)
        entity) := by
  refine ⟨applyAll_invInverse ixf ops, ?_, ?_⟩
  · intro h1 h2
    have e1 := (applyAll_invInverse ixf ops x k).mp h1
    have e2 := (applyAll_invInverse ixf ops x k').mp h2
    exact Option.some_injective _ (e1.symm.trans e2)
  · intro hinv hrev hne
    constructor
    · intro hmem
      have hthis :=
        (update_memBucket ixf b entity (some t) hinv k1 entity).mp hmem
      rw [if_pos rfl] at hthis
      exact hne (by simpa using hthis)
    · rw [update_memBucket ixf b entity (some t) hinv (ixf t) entity,
        if_pos rfl]
      rfl

/-- Witness for C5: one entity indexed under key 1 and then updated to key 2
is no longer in bucket 1 and is in bucket 2. -/
theorem index_backing_mutual_inverse_witness :
    ¬ (IndexBacking.update id
        (IndexBacking.applyAll id [((0 : Nat), some (1 : Nat))]) 0
        (some 2)).1.memBucket 1 0 ∧
    (IndexBacking.update id
        (IndexBacking.applyAll id [((0 : Nat), some (1 : Nat))]) 0
        (some 2)).1.memBucket (id 2) 0 := by
  have h := index_backing_mutual_inverse id [((0 : Nat), some (1 : Nat))]
    (IndexBacking.applyAll id [((0 : Nat), some (1 : Nat))]) 0 0 2 1 1 1
  exact h.2.2 h.1 rfl (by decide)

/-- C8: IndexBacking::update preserves the no-empty-bucket property, and an
update that takes the last remaining entity out of a bucket (by removal or
by moving the entity to a different key) removes the bucket itself from the
forward map. -/
theorem index_empty_bucket_pruning {E K T : Type} [DecidableEq E]
    [DecidableEq K] (ixf : T → K) (b : IndexBacking E K) (entity : E)
    (value : Option T) (k1 : K) (s : Finset E) :
    (b.NoEmpty → ((IndexBacking.update ixf b entity value).1).NoEmpty) ∧
    (b.reverse entity = some k1 → b.forward k1 = some s →
      s.erase entity = ∅ → value.map ixf ≠ some k1 →
      (IndexBacking.update ixf b entity value).1.forward k1 = none) :=
  ⟨update_preserves_noEmpty ixf b entity value,
   fun hrev hf hs hv => update_prunes_last ixf b entity value k1 s hrev hf hs hv⟩

/-- Witness for C8: removing the sole entity of bucket 1 removes the bucket,
and an update of the empty backing keeps every bucket nonempty. -/
theorem index_empty_bucket_pruning_witness :
    (IndexBacking.update id
        (IndexBacking.applyAll id [((0 : Nat), some (1 : Nat))]) 0
        none).1.forward 1 = none ∧
    ((IndexBacking.update (id : Fin 2 → Fin 2) IndexBacking.init 0
        (some 1)).1).NoEmpty := by
  constructor
  · exact (index_empty_bucket_pruning id
      (IndexBacking.applyAll id [((0 : Nat), some (1 : Nat))]) 0 none 1
      (insert 0 ∅)).2 rfl rfl (by decide) (by decide)
  · exact (index_empty_bucket_pruning (id : Fin 2 → Fin 2)
      IndexBacking.init 0 (some 1) 0 ∅).1 init_noEmpty

/-- C10: a removal update for an entity absent from the reverse map returns
None and leaves the backing exactly as it was. -/
theorem update_none_unindexed_noop {E K T : Type} [DecidableEq E]
    [DecidableEq K] (ixf : T → K) (b : IndexBacking E K) (entity : E)
    (h : b.reverse entity = none) :
    IndexBacking.update ixf b entity none = (b, none) := by
  have hrev : (fun e => if e = entity then (Option.map ixf none)
      else b.reverse e) = b.reverse := by
    funext e
    by_cases he : e = entity
    · rw [if_pos he, he, h]
      rfl
    · rw [if_neg he]
  unfold IndexBacking.update
  rw [h, hrev]
  rfl

/-- Witness for C10: removing a never-indexed entity from the empty backing
is a no-op returning None. -/
theorem update_none_unindexed_noop_witness :
    IndexBacking.update (id : Nat → Nat) IndexBacking.init (5 : Nat) none
      = (IndexBacking.init, none) :=
  update_none_unindexed_noop id IndexBacking.init 5 rfl

/-- ensure_updated always leaves last_this_run stamped with the current
tick. -/
theorem ensure_updated_stamps {E K T : Type} [DecidableEq E] [DecidableEq K]
    (ixf : T → K) (env : IndexEnv E T) (b : IndexBacking E K) :
    (Index.ensure_updated ixf env b).last_this_run = some env.this_run := by
  unfold Index.ensure_updated
  by_cases hc : b.last_this_run ≠ some env.this_run
  · rw [if_pos hc]
    rfl
  · rw [if_neg hc]
    exact not_not.mp hc

/-- C6: when last_this_run already equals this_run, ensure_updated is the
identity on the whole index state; and since get and iter run
ensure_updated first and stamp last_this_run, a second get or iter in the
same run leaves the state of the first untouched, so the refresh happens at
most once per run. -/
theorem index_refresh_idempotent {E K T : Type} [DecidableEq E]
    [DecidableEq K] (ixf : T → K) (env : IndexEnv E T)
    (b : IndexBacking E K) (v v' : T) :
    (b.last_this_run = some env.this_run →
      Index.ensure_updated ixf env b = b) ∧
    ((Index.get ixf env (Index.get ixf env b v).1 v').1
      = (Index.get ixf env b v).1) ∧
    ((Index.iter ixf env (Index.iter ixf env b).1).1
      = (Index.iter ixf env b).1) := by
  have hnoop : ∀ c : IndexBacking E K, c.last_this_run = some env.this_run →
      Index.ensure_updated ixf env c = c := by
    intro c hc
    unfold Index.ensure_updated
    rw [if_neg (by simp [hc])]
  refine ⟨hnoop b, ?_, ?_⟩
  · show Index.ensure_updated ixf env (Index.ensure_updated ixf env b)
      = Index.ensure_updated ixf env b
    exact hnoop _ (ensure_updated_stamps ixf env b)
  · show Index.ensure_updated ixf env (Index.ensure_updated ixf env b)
      = Index.ensure_updated ixf env b
    exact hnoop _ (ensure_updated_stamps ixf env b)

/-- Witness for C6: an index already refreshed at tick 3 is untouched by
ensure_updated at tick 3. -/
theorem index_refresh_idempotent_witness :
    Index.ensure_updated (id : Nat → Nat) (⟨[], [], 3⟩ : IndexEnv Nat Nat)
      (⟨fun _ => none, fun _ => none, some 3⟩ : IndexBacking Nat Nat)
      = ⟨fun _ => none, fun _ => none, some 3⟩ :=
  (index_refresh_idempotent id (⟨[], [], 3⟩ : IndexEnv Nat Nat)
    (⟨fun _ => none, fun _ => none, some 3⟩ : IndexBacking Nat Nat) 0 0).1
    rfl
